import Mathlib

/-!
Verification of the cluster-topology-to-connection-URI resolver of keyhole
(`src/mdb/shards.go`).  Go strings are modelled as lists of characters
(`Str`); the relevant `strings` / `net/url` library functions are modelled
byte-for-byte for the ASCII inputs the resolver handles.  A Go runtime panic
is modelled as `none` in an `Option` result; the Go `error` return value is
modelled as `Option Str` (with `none` standing for the `nil` error).
-/

namespace Keyhole

/-- Go strings, as lists of characters. -/
abbrev Str := List Char

/-- Coerce a Lean string literal to the `Str` model. -/
def str (s : String) : Str := s.data

/-- `strings.Index`: index of the first occurrence of `pat`, `none` for Go's `-1`. -/
def idxOf? (pat : Str) : Str → Option Nat
  | [] => if pat.isPrefixOf ([] : Str) then some 0 else none
  | c :: t => if pat.isPrefixOf (c :: t) then some 0 else (idxOf? pat t).map (· + 1)

/-- `strings.Contains`. -/
def goContains (pat s : Str) : Bool := (idxOf? pat s).isSome

/-- `strings.Split` with a one-character separator (the only form the resolver uses). -/
def splitOnChar (c : Char) : Str → List Str
  | [] => [[]]
  | x :: t =>
    if x = c then [] :: splitOnChar c t
    else
      match splitOnChar c t with
      | [] => [[x]]
      | h :: r => (x :: h) :: r

/-- `strings.Join` with separator `"."`. -/
def joinDots : List Str → Str
  | [] => []
  | [x] => x
  | x :: y :: r => x ++ '.' :: joinDots (y :: r)

/-- One pass of `strings.Replacer.Replace`: at each position the first pattern of
`pats` that matches is removed (all replacements in the source are the empty
string); `fuel` bounds the number of steps (one per consumed character). -/
def replaceFuel (pats : List Str) : Nat → Str → Str
  | 0, l => l
  | _ + 1, [] => []
  | fuel + 1, c :: t =>
    match pats.find? (fun p => !p.isEmpty && p.isPrefixOf (c :: t)) with
    | some p => replaceFuel pats fuel ((c :: t).drop p.length)
    | none => c :: replaceFuel pats fuel t

/-- `strings.NewReplacer(pats...).Replace` with empty replacement strings. -/
def goReplace (pats : List Str) (s : Str) : Str := replaceFuel pats s.length s

/-- The hostname/port split used by `GetAllServerURIs`
(`if idx := strings.Index(host, ":"); idx > 0`); the port keeps its colon. -/
def stripPort (host : Str) : Str × Str :=
  match idxOf? (str ":") host with
  | some i => if 0 < i then (host.take i, host.drop i) else (host, [])
  | none => (host, [])

/-- Characters `url.QueryEscape` leaves unescaped. -/
def isUnreserved (c : Char) : Bool :=
  c.isAlphanum || c = '-' || c = '_' || c = '.' || c = '~'

/-- Upper-case hexadecimal digit. -/
def hexDigit (n : Nat) : Char :=
  if n < 10 then Char.ofNat (48 + n) else Char.ofNat (65 + n - 10)

/-- `url.QueryEscape` (for the ASCII passwords the resolver handles). -/
def queryEscape : Str → Str
  | [] => []
  | c :: t =>
    (if isUnreserved c then [c]
     else if c = ' ' then ['+']
     else ['%', hexDigit (c.toNat / 16 % 16), hexDigit (c.toNat % 16)]) ++ queryEscape t

/-- Number of occurrences of `p` as a contiguous substring (one per start position). -/
def occs (p : Str) : Str → Nat
  | [] => if p.isPrefixOf ([] : Str) then 1 else 0
  | c :: t => (if p.isPrefixOf (c :: t) then 1 else 0) + occs p t

/-- `p` occurs somewhere inside `l`. -/
def hasSub (p l : Str) : Prop := ∃ a b, l = a ++ p ++ b

/-- The Go loop over shards: build each item in order; a panic (`none`) anywhere
aborts the whole call. -/
def mapO (f : α → Option β) : List α → Option (List β)
  | [] => some []
  | x :: t =>
    match f x, mapO f t with
    | some y, some ys => some (y :: ys)
    | _, _ => none

/-- `mdb.Shard` (its `Servers` field, nested cluster statistics, plays no role in
URI building and is omitted). -/
structure Shard where
  id : Str
  host : Str
  state : Int
  tags : List Str

/-- The fields of `connstring.ConnString` that the resolver reads.  `original` is
the raw connection string returned by `ConnString.String()`; each
read-preference tag map is given together with its (unspecified) Go map
iteration order, as an association list. -/
structure ConnString where
  original : Str
  username : Str
  password : Str
  database : Str
  authSource : Str
  hosts : List Str
  sslSet : Bool
  sslCaFileSet : Bool
  sslCaFile : Str
  sslClientCertificateKeyFileSet : Bool
  sslClientCertificateKeyFile : Str
  sslInsecureSet : Bool
  readPreference : Str
  readPreferenceTagSets : List (List (Str × Str))
  wNumberSet : Bool
  wNumber : Int
  wString : Str
  retryReadsSet : Bool
  retryWritesSet : Bool

/-- `strings.Index(connString.String(), "mongodb+srv") == 0`, equivalently
`strings.HasPrefix` in `GetAllServerURIs`. -/
def isSRV (cs : ConnString) : Bool := (str "mongodb+srv").isPrefixOf cs.original

/-- Decimal rendering of a Go `int` by `fmt.Sprintf("%v", ...)`. -/
def intStr (i : Int) : Str := (toString i).data

/-- The inner double loop of the `readPreferenceTags` branch of `GetQueryParams`:
`cnt` counts pairs already emitted; a comma is appended after every pair except
the first. -/
def tagPairs : Nat → List (Str × Str) → Str
  | _, [] => []
  | cnt, (k, v) :: t =>
    k ++ ':' :: v ++ (if 0 < cnt then [','] else []) ++ tagPairs (cnt + 1) t

/-- The flattened tag emission over all tag sets. -/
def tagConcat (ts : List (List (Str × Str))) : Str := tagPairs 0 ts.flatten

/-- `mdb.GetQueryParams`. -/
def getQueryParams (cs : ConnString) (isConnectDirect : Bool) : Str :=
  (if cs.sslSet then str "&tls=true" else []) ++
  (if cs.sslCaFileSet then str "&tlsCAFile=" ++ cs.sslCaFile else []) ++
  (if cs.sslClientCertificateKeyFileSet then
    str "&tlsCertificateKeyFile=" ++ cs.sslClientCertificateKeyFile else []) ++
  (if cs.sslInsecureSet then str "&tlsInsecure=true" else []) ++
  (if !cs.readPreference.isEmpty && !isConnectDirect then
    str "&readPreference=" ++ cs.readPreference else []) ++
  (if decide (0 < cs.readPreferenceTagSets.length) && !isConnectDirect then
    str "&readPreferenceTags=" ++ tagConcat cs.readPreferenceTagSets else []) ++
  (if cs.wNumberSet then str "&w=" ++ intStr cs.wNumber
   else if !cs.wString.isEmpty then str "&w=" ++ cs.wString else []) ++
  (if cs.retryReadsSet then str "&retryReads=true" else []) ++
  (if cs.retryWritesSet then str "&retryWrites=true" else [])

/-- The body of the `GetAllShardURIs` loop for one shard.  `strings.Index`
returning `-1` makes the Go code slice with a negative bound, a runtime panic,
modelled as `none`. -/
def shardURI (cs : ConnString) (sh : Shard) : Option Str :=
  match idxOf? (str "/") sh.host with
  | none => none
  | some idx =>
    let setName := sh.host.take idx
    let hosts := sh.host.drop (idx + 1)
    let cred : Str :=
      if !cs.username.isEmpty then
        cs.username ++ ':' :: queryEscape cs.password ++ '@' :: hosts
      else hosts
    let auth : Str :=
      if !isSRV cs && !cs.authSource.isEmpty then str "&authSource=" ++ cs.authSource
      else if isSRV cs then str "&authSource=admin&tls=true"
      else []
    some (str "mongodb://" ++ cred ++ '/' :: cs.database ++ str "?replicaSet=" ++
      setName ++ auth ++ getQueryParams cs false)

/-- `mdb.GetAllShardURIs`; the second component models the returned `error`,
which the Go code always sets to `nil`. -/
def getAllShardURIs (shards : List Shard) (cs : ConnString) :
    Option (List Str × Option Str) :=
  (mapO (shardURI cs) shards).map (fun l => (l, none))

/-- The seed-host pre-pass of `GetAllServerURIs`: the map from derived base
hostnames to original `-pri` hostnames (newest insertion first, lookups take the
first hit, matching Go map overwrite semantics) together with the plain list of
original hostnames. -/
def buildSeeds (hosts : List Str) : List (Str × Str) × List Str :=
  hosts.foldl
    (fun acc origHost =>
      let origHostname :=
        match idxOf? (str ":") origHost with
        | some i => if 0 < i then origHost.take i else origHost
        | none => origHost
      let l' := acc.2 ++ [origHostname]
      let m' :=
        if goContains (str "-pri") origHostname then
          match idxOf? (str "-pri") origHostname with
          | some i =>
            if 0 < i then
              let baseHost := origHostname.take i
              let m1 :=
                match idxOf? (str ".") baseHost with
                | some d => if 0 < d then (baseHost.take d, origHostname) :: acc.1 else acc.1
                | none => acc.1
              (baseHost, origHostname) :: m1
            else acc.1
          | none => acc.1
        else acc.1
      (m', l'))
    ([], [])

/-- Go map lookup on the modelled `originalHostsMap`. -/
def lookupMap (m : List (Str × Str)) (k : Str) : Option Str :=
  (m.find? (fun kv => kv.1 == k)).map (·.2)

/-- Shard-identifier derivation for a topology-reported hostname
(`GetAllServerURIs`, inner loop). -/
def deriveShardID (hostname : Str) : Str :=
  match splitOnChar '.' hostname with
  | [] => []
  | firstPart :: _ =>
    if goContains (str "-shard-") firstPart then
      let cleaned := goReplace [str "-wucdt", str "-pri", str "-sec"] firstPart
      match idxOf? (str "-shard-") cleaned with
      | some i =>
        if 0 < i then
          let afterShard := cleaned.drop (i + 7)
          if decide (5 ≤ afterShard.length) && goContains (str "-") (afterShard.take 5) then
            cleaned.take (i + 7 + 5)
          else cleaned
        else cleaned
      | none => cleaned
    else firstPart

/-- Shard-identifier derivation for an original seed hostname (the fallback
linear scan); when the post-cleaning `-shard-` search fails the identifier stays
the undecorated base, unlike `deriveShardID`. -/
def deriveOrigShardID (origHost : Str) : Str :=
  let origBase0 :=
    match idxOf? (str "-pri") origHost with
    | some i => if 0 < i then origHost.take i else origHost
    | none => origHost
  let origBase :=
    match idxOf? (str ".") origBase0 with
    | some d => if 0 < d then origBase0.take d else origBase0
    | none => origBase0
  if goContains (str "-shard-") origBase then
    let cleaned := goReplace [str "-wucdt", str "-pri", str "-sec"] origBase
    match idxOf? (str "-shard-") cleaned with
    | some i =>
      if 0 < i then
        let afterShard := cleaned.drop (i + 7)
        if decide (5 ≤ afterShard.length) && goContains (str "-") (afterShard.take 5) then
          cleaned.take (i + 7 + 5)
        else cleaned
      else origBase
    | none => origBase
  else origBase

/-- The hostname reconciliation of `GetAllServerURIs`: direct map hit, fallback
scan over the seed list, then the `-pri` synthesis for managed-provider
hostnames, else identity. -/
def reconcileHostname (m : List (Str × Str)) (l : List Str) (hostname0 : Str) : Str :=
  let step1 : Bool × Str :=
    if !m.isEmpty || !l.isEmpty then
      let shardID := deriveShardID hostname0
      match lookupMap m shardID with
      | some origHost => (true, origHost)
      | none =>
        match l.find? (fun origHost => deriveOrigShardID origHost == shardID) with
        | some origHost => (true, origHost)
        | none => (false, hostname0)
    else (false, hostname0)
  let matched := step1.1
  let hostname1 := step1.2
  if !matched && goContains (str "-shard-") hostname1 &&
      goContains (str ".gcp.mongodb.net") hostname1 then
    if !goContains (str "-pri") hostname1 then
      match splitOnChar '.' hostname1 with
      | [] => hostname1
      | firstPart :: rest => goReplace [str "-wucdt"] firstPart ++ str "-pri." ++ joinDots rest
    else hostname1
  else hostname1

/-- One direct-mode URI of `GetAllServerURIs` for a single member host. -/
def memberURI (cs : ConnString) (setName : Str) (m : List (Str × Str)) (l : List Str)
    (host : Str) : Str :=
  let hp := stripPort host
  let finalHost := reconcileHostname m l hp.1 ++ hp.2
  let head : Str :=
    if !cs.username.isEmpty then
      cs.username ++ ':' :: queryEscape cs.password ++ '@' :: finalHost ++ str "/?"
    else finalHost ++ str "/?"
  let auth : Str :=
    if isSRV cs then str "authSource=admin&tls=true"
    else if !cs.authSource.isEmpty then str "authSource=" ++ cs.authSource
    else if !cs.username.isEmpty then str "authSource=admin"
    else []
  str "mongodb://" ++ head ++ str "replicaSet=" ++ setName ++ '&' :: auth ++
    getQueryParams cs true

/-- The `GetAllServerURIs` loop body for one shard (panics as in `shardURI` when
the host field has no `/`). -/
def serverURIsOfShard (cs : ConnString) (m : List (Str × Str)) (l : List Str)
    (sh : Shard) : Option (List Str) :=
  match idxOf? (str "/") sh.host with
  | none => none
  | some idx =>
    let setName := sh.host.take idx
    let allHosts := sh.host.drop (idx + 1)
    some ((splitOnChar ',' allHosts).map (memberURI cs setName m l))

/-- `mdb.GetAllServerURIs`. -/
def getAllServerURIs (shards : List Shard) (cs : ConnString) :
    Option (List Str × Option Str) :=
  let seeds := buildSeeds cs.hosts
  (mapO (serverURIsOfShard cs seeds.1 seeds.2) shards).map (fun ls => (ls.flatten, none))

/-- The replica-set name a shard contributes to its URIs: the prefix of the
`host` field before the `/` separator. -/
def setNameOf (sh : Shard) : Str :=
  match idxOf? (str "/") sh.host with
  | some i => sh.host.take i
  | none => []

/-- The member-host part of a shard's `host` field (after the `/`). -/
def memberStrOf (sh : Shard) : Str :=
  match idxOf? (str "/") sh.host with
  | some i => sh.host.drop (i + 1)
  | none => []

/-- The substring the discovery URIs are counted against. -/
def needleRS : Str := str "replicaSet="

/-- A connection configuration with every option unset. -/
def csEmpty : ConnString where
  original := str "mongodb://seed"
  username := []
  password := []
  database := []
  authSource := []
  hosts := []
  sslSet := false
  sslCaFileSet := false
  sslCaFile := []
  sslClientCertificateKeyFileSet := false
  sslClientCertificateKeyFile := []
  sslInsecureSet := false
  readPreference := []
  readPreferenceTagSets := []
  wNumberSet := false
  wNumber := 0
  wString := []
  retryReadsSet := false
  retryWritesSet := false

/-! ### Helper lemmas on the string model -/

theorem isPre_nil_left (l : Str) : ([] : Str).isPrefixOf l = true := by
  cases l <;> rfl

theorem isPre_append_self (p x : Str) : p.isPrefixOf (p ++ x) = true := by
  induction p with
  | nil => exact isPre_nil_left x
  | cons c t ih => simp [List.isPrefixOf, ih]

theorem isPre_subset {p l : Str} (h : p.isPrefixOf l = true) : ∀ x ∈ p, x ∈ l := by
  induction p generalizing l with
  | nil => simp
  | cons c t ih =>
    cases l with
    | nil => simp [List.isPrefixOf] at h
    | cons d l' =>
      simp only [List.isPrefixOf, Bool.and_eq_true, beq_iff_eq] at h
      intro x hx
      rcases List.mem_cons.mp hx with rfl | hx
      · exact h.1 ▸ List.mem_cons_self _ _
      · exact List.mem_cons_of_mem _ (ih h.2 x hx)

theorem isPre_of_append_isPre {p q l : Str} (h : (p ++ q).isPrefixOf l = true) :
    p.isPrefixOf l = true := by
  induction p generalizing l with
  | nil => exact isPre_nil_left l
  | cons c t ih =>
    cases l with
    | nil => simp [List.isPrefixOf] at h
    | cons d l' =>
      simp only [List.cons_append, List.isPrefixOf, Bool.and_eq_true] at h ⊢
      exact ⟨h.1, ih h.2⟩

theorem isPre_append_eq (p : Str) :
    ∀ b : Str, (∀ c, b.head? = some c → c ∉ p) →
    ∀ l : Str, p.isPrefixOf (l ++ b) = p.isPrefixOf l := by
  induction p with
  | nil => intro b _ l; rw [isPre_nil_left, isPre_nil_left]
  | cons c p' ih =>
    intro b hb l
    cases l with
    | nil =>
      cases b with
      | nil => rfl
      | cons d b' =>
        have hd : d ∉ c :: p' := hb d rfl
        have hcd : (c == d) = false := by
          by_cases h : c = d
          · exact absurd (by rw [h]; exact List.mem_cons_self d p') hd
          · simpa using h
        simp [List.isPrefixOf, hcd]
    | cons d l' =>
      have hb' : ∀ x, b.head? = some x → x ∉ p' :=
        fun x hx hxp => hb x hx (List.mem_cons_of_mem _ hxp)
      simp only [List.cons_append, List.isPrefixOf]
      rw [show List.append l' b = l' ++ b from rfl, ih b hb' l']

theorem occs_nil {p : Str} (hp : p ≠ []) : occs p [] = 0 := by
  cases p with
  | nil => exact absurd rfl hp
  | cons c t => simp [occs, List.isPrefixOf]

theorem occs_cons (p : Str) (c : Char) (t : Str) :
    occs p (c :: t) = (if p.isPrefixOf (c :: t) then 1 else 0) + occs p t := rfl

theorem occs_append_sep {p : Str} (hp : p ≠ []) (b : Str)
    (hb : ∀ c, b.head? = some c → c ∉ p) :
    ∀ a : Str, occs p (a ++ b) = occs p a + occs p b := by
  intro a
  induction a with
  | nil => simp [occs_nil hp]
  | cons c t ih =>
    have h1 : p.isPrefixOf (c :: (t ++ b)) = p.isPrefixOf (c :: t) := by
      have h2 := isPre_append_eq p b hb (c :: t)
      rwa [List.cons_append] at h2
    rw [List.cons_append, occs_cons, occs_cons, h1, ih]
    omega

theorem occs_zero_of_not_mem {p l : Str} {ch : Char} (hc : ch ∈ p) (hl : ch ∉ l) :
    occs p l = 0 := by
  induction l with
  | nil =>
    have hp : p ≠ [] := by rintro rfl; exact absurd hc (List.not_mem_nil ch)
    exact occs_nil hp
  | cons d t ih =>
    have hind : p.isPrefixOf (d :: t) = false := by
      by_cases h : p.isPrefixOf (d :: t) = true
      · exact absurd (isPre_subset h ch hc) hl
      · exact Bool.eq_false_iff.mpr h
    rw [occs_cons, hind]
    simpa using ih (fun h => hl (List.mem_cons_of_mem d h))

theorem occs_pattern_le (p q l : Str) : occs (p ++ q) l ≤ occs p l := by
  have hmono : ∀ l' : Str,
      ((if (p ++ q).isPrefixOf l' then 1 else 0) : Nat) ≤
        (if p.isPrefixOf l' then 1 else 0) := by
    intro l'
    by_cases h : (p ++ q).isPrefixOf l' = true
    · simp [h, isPre_of_append_isPre h]
    · simp [h]
  induction l with
  | nil => simpa [occs] using hmono []
  | cons c t ih =>
    rw [occs_cons, occs_cons]
    have := hmono (c :: t)
    omega

theorem occs_pos {p : Str} (hp : p ≠ []) (b : Str) :
    ∀ a : Str, 1 ≤ occs p (a ++ (p ++ b)) := by
  intro a
  induction a with
  | nil =>
    cases p with
    | nil => exact absurd rfl hp
    | cons c t =>
      have hind : (c :: t).isPrefixOf (c :: (t ++ b)) = true := by
        have h2 := isPre_append_self (c :: t) b
        rwa [List.cons_append] at h2
      rw [List.nil_append, List.cons_append, occs_cons, hind]
      simp
  | cons d a' ih =>
    rw [List.cons_append, occs_cons]
    omega

theorem occs_cons_ne {hd c : Char} (p' x : Str) (h : hd ≠ c) :
    occs (hd :: p') (c :: x) = occs (hd :: p') x := by
  have hcd : (hd == c) = false := by simpa using h
  have hind : (hd :: p').isPrefixOf (c :: x) = false := by
    simp [List.isPrefixOf, hcd]
  rw [occs_cons, hind]
  simp

theorem occs_lit_skip {hd : Char} (p' : Str) :
    ∀ lit x : Str, hd ∉ lit →
    occs (hd :: p') (lit ++ x) = occs (hd :: p') x := by
  intro lit
  induction lit with
  | nil => intro x _; rfl
  | cons c t ih =>
    intro x hlit
    have hc : hd ≠ c := fun h => hlit (by rw [h]; exact List.mem_cons_self c t)
    rw [List.cons_append, occs_cons_ne _ _ hc,
      ih x (fun h => hlit (List.mem_cons_of_mem c h))]

theorem occs_cons_false {p : Str} {c : Char} {x : Str}
    (h : p.isPrefixOf (c :: x) = false) : occs p (c :: x) = occs p x := by
  rw [occs_cons, h]
  simp

theorem head_sep {d : Char} (t : Str) {p : Str} (hd : d ∉ p) :
    ∀ c, ((d :: t : Str)).head? = some c → c ∉ p := by
  intro c hc
  simp only [List.head?_cons, Option.some.injEq] at hc
  rwa [← hc]

theorem hexDigit_ne {n : Nat} (hn : n < 16) : hexDigit n ≠ '=' := by
  interval_cases n <;> decide

theorem eq_not_mem_queryEscape (s : Str) : '=' ∉ queryEscape s := by
  induction s with
  | nil => simp [queryEscape]
  | cons c t ih =>
    simp only [queryEscape, List.mem_append]
    rintro (h | h)
    · by_cases h1 : isUnreserved c
      · simp only [h1, if_true, List.mem_singleton] at h
        subst h
        exact absurd h1 (by decide)
      · by_cases h2 : c = ' '
        · simp [h1, h2] at h
          exact absurd h (by decide)
        · simp only [h1, h2, if_false, Bool.false_eq_true, List.mem_cons,
            List.not_mem_nil, or_false] at h
          rcases h with h | h | h
          · exact absurd h (by decide)
          · exact absurd h.symm (hexDigit_ne (Nat.mod_lt _ (by decide)))
          · exact absurd h.symm (hexDigit_ne (Nat.mod_lt _ (by decide)))
    · exact ih h

theorem amp_nil : ∀ ch : Char, (([] : Str)).head? = some ch → ch = '&' := by
  intro ch hc
  simp at hc

theorem amp_singleton {a : Str} (ha : a.head? = some '&') :
    ∀ ch, a.head? = some ch → ch = '&' := by
  intro ch hc
  rw [ha] at hc
  exact (Option.some.injEq _ _ ▸ hc).symm

theorem amp_of_head {a : Str} (x : Str) (ha : a.head? = some '&') :
    ∀ ch, (a ++ x).head? = some ch → ch = '&' := by
  cases a with
  | nil => simp at ha
  | cons d t =>
    intro ch hc
    simp only [List.cons_append, List.head?_cons, Option.some.injEq] at ha hc
    rw [← hc, ← ha]

theorem amp_head_append {a b : Str} (ha : ∀ ch, a.head? = some ch → ch = '&')
    (hb : ∀ ch, b.head? = some ch → ch = '&') :
    ∀ ch, (a ++ b).head? = some ch → ch = '&' := by
  cases a with
  | nil => simpa using hb
  | cons d t =>
    intro ch hc
    simp only [List.cons_append, List.head?_cons, Option.some.injEq] at hc
    exact hc ▸ ha d rfl

theorem amp_ite {c : Prop} [Decidable c] {a b : Str}
    (ha : ∀ ch, a.head? = some ch → ch = '&')
    (hb : ∀ ch, b.head? = some ch → ch = '&') :
    ∀ ch, (if c then a else b).head? = some ch → ch = '&' := by
  by_cases h : c <;> simp [h] <;> [exact fun ch hc => ha ch hc; exact fun ch hc => hb ch hc]

theorem qp_head (cs : ConnString) (flag : Bool) :
    ∀ ch, (getQueryParams cs flag).head? = some ch → ch = '&' := by
  unfold getQueryParams
  refine amp_head_append ?_ (amp_ite (amp_singleton (by decide)) amp_nil)
  refine amp_head_append ?_ (amp_ite (amp_singleton (by decide)) amp_nil)
  refine amp_head_append ?_
    (amp_ite (amp_of_head _ (by decide)) (amp_ite (amp_of_head _ (by decide)) amp_nil))
  refine amp_head_append ?_ (amp_ite (amp_of_head _ (by decide)) amp_nil)
  refine amp_head_append ?_ (amp_ite (amp_of_head _ (by decide)) amp_nil)
  refine amp_head_append ?_ (amp_ite (amp_singleton (by decide)) amp_nil)
  refine amp_head_append ?_ (amp_ite (amp_of_head _ (by decide)) amp_nil)
  exact amp_head_append (amp_ite (amp_singleton (by decide)) amp_nil)
    (amp_ite (amp_of_head _ (by decide)) amp_nil)

theorem needle_shape : needleRS = 'r' :: str "eplicaSet=" := by decide

theorem occs_rs_lit (lit x : Str) (hlit : 'r' ∉ lit) :
    occs needleRS (lit ++ x) = occs needleRS x := by
  rw [needle_shape]
  exact occs_lit_skip _ lit x hlit

theorem occs_rs_cons (c : Char) (x : Str) (hc : c ≠ 'r') :
    occs needleRS (c :: x) = occs needleRS x := by
  rw [needle_shape]
  exact occs_cons_ne _ _ (fun h => hc h.symm)

theorem occs_rs_sep (b : Str) (hb : ∀ c, b.head? = some c → c ∉ needleRS) (a : Str) :
    occs needleRS (a ++ b) = occs needleRS a + occs needleRS b :=
  occs_append_sep (by decide) b hb a

theorem qp_head_notin (cs : ConnString) (flag : Bool) :
    ∀ c, (getQueryParams cs flag).head? = some c → c ∉ needleRS := by
  intro c hc
  rw [qp_head cs flag c hc]
  decide

theorem amp_notin {x : Str} (h : ∀ ch, x.head? = some ch → ch = '&') :
    ∀ c, x.head? = some c → c ∉ needleRS := by
  intro c hc
  rw [h c hc]
  decide

theorem occs_rs_self (x : Str) : occs needleRS (needleRS ++ x) = 1 + occs needleRS x := by
  have hsh : needleRS ++ x = 'r' :: (str "eplicaSet=" ++ x) := by
    rw [needle_shape, List.cons_append]
  have h1 : needleRS.isPrefixOf ('r' :: (str "eplicaSet=" ++ x)) = true := by
    rw [← hsh]
    exact isPre_append_self _ _
  rw [hsh, occs_cons, h1, occs_rs_lit _ _ (by decide)]
  simp

theorem occs_rs_authsrc (as : Str) (ha0 : occs needleRS as = 0) :
    occs needleRS (str "&authSource=" ++ as) = 0 := by
  rw [show str "&authSource=" = str "&authSou" ++ str "rce=" from by decide,
    List.append_assoc, occs_rs_lit _ _ (by decide),
    show str "rce=" ++ as = 'r' :: (str "ce=" ++ as) from by
      rw [show str "rce=" = 'r' :: str "ce=" from by decide, List.cons_append]]
  have hpre : needleRS.isPrefixOf ('r' :: (str "ce=" ++ as)) = false := by
    rw [needle_shape,
      show str "ce=" ++ as = 'c' :: (str "e=" ++ as) from by
        rw [show str "ce=" = 'c' :: str "e=" from by decide, List.cons_append],
      show str "eplicaSet=" = 'e' :: str "plicaSet=" from by decide]
    have he : (('e' : Char) == 'c') = false := by decide
    simp [List.isPrefixOf, he]
  rw [occs_cons_false hpre, occs_rs_lit _ _ (by decide), ha0]

theorem occs_rs_qe (pw : Str) : occs needleRS (queryEscape pw) = 0 :=
  occs_zero_of_not_mem (by decide : '=' ∈ needleRS) (eq_not_mem_queryEscape pw)

theorem occs_rs_uri (u pw db sn hosts asrc qpstr : Str) (bU bA1 bA2 : Bool)
    (hu0 : occs needleRS u = 0) (hd0 : occs needleRS db = 0)
    (ha0 : occs needleRS asrc = 0) (hs0 : occs needleRS sn = 0)
    (hh0 : occs needleRS hosts = 0) (hq0 : occs needleRS qpstr = 0)
    (hqamp : ∀ ch, qpstr.head? = some ch → ch = '&') :
    occs needleRS
      (str "mongodb://" ++
        (if bU = true then u ++ ':' :: queryEscape pw ++ '@' :: hosts else hosts) ++
        '/' :: db ++ str "?replicaSet=" ++ sn ++
        (if bA1 = true then str "&authSource=" ++ asrc
         else if bA2 = true then str "&authSource=admin&tls=true" else []) ++ qpstr) = 1 := by
  simp only [List.append_assoc, List.cons_append]
  rw [occs_rs_lit (str "mongodb://") _ (by decide)]
  have hbtail : ∀ c,
      (('/' :: (db ++ (str "?replicaSet=" ++ (sn ++
        ((if bA1 = true then str "&authSource=" ++ asrc
          else if bA2 = true then str "&authSource=admin&tls=true" else []) ++ qpstr))))) :
        Str).head? = some c → c ∉ needleRS := head_sep _ (by decide)
  rw [occs_rs_sep _ hbtail _]
  have hcred : occs needleRS
      (if bU = true then u ++ (':' :: (queryEscape pw ++ ('@' :: hosts))) else hosts) = 0 := by
    split
    · have hb1 : ∀ c, ((':' :: (queryEscape pw ++ ('@' :: hosts))) : Str).head? = some c →
          c ∉ needleRS := head_sep _ (by decide)
      have hb2 : ∀ c, (('@' :: hosts : Str)).head? = some c → c ∉ needleRS :=
        head_sep _ (by decide)
      rw [occs_rs_sep _ hb1 u, hu0, occs_rs_cons ':' _ (by decide),
        occs_rs_sep _ hb2 (queryEscape pw), occs_rs_qe, occs_rs_cons '@' _ (by decide), hh0]
    · exact hh0
  rw [hcred, occs_rs_cons '/' _ (by decide)]
  have hbq : ∀ c,
      ((str "?replicaSet=" ++ (sn ++
        ((if bA1 = true then str "&authSource=" ++ asrc
          else if bA2 = true then str "&authSource=admin&tls=true" else []) ++ qpstr))) :
        Str).head? = some c → c ∉ needleRS := by
    rw [show str "?replicaSet=" = '?' :: needleRS from by decide, List.cons_append]
    exact head_sep _ (by decide)
  rw [occs_rs_sep _ hbq db, hd0,
    show str "?replicaSet=" = '?' :: needleRS from by decide, List.cons_append,
    occs_rs_cons '?' _ (by decide), occs_rs_self]
  have hampauth : ∀ ch,
      ((if bA1 = true then str "&authSource=" ++ asrc
        else if bA2 = true then str "&authSource=admin&tls=true" else []) :
        Str).head? = some ch → ch = '&' :=
    amp_ite (amp_of_head _ (by decide)) (amp_ite (amp_singleton (by decide)) amp_nil)
  rw [occs_rs_sep _ (amp_notin (amp_head_append hampauth hqamp)) sn, hs0]
  have hauth : occs needleRS
      (if bA1 = true then str "&authSource=" ++ asrc
       else if bA2 = true then str "&authSource=admin&tls=true" else []) = 0 := by
    split
    · exact occs_rs_authsrc asrc ha0
    · split
      · decide
      · exact occs_nil (by decide)
  rw [occs_rs_sep _ (amp_notin hqamp) _, hauth, hq0]

theorem occs_rs_uri_lb (u pw db sn hosts asrc qpstr : Str) (bU bA1 bA2 : Bool) :
    1 ≤ occs (needleRS ++ sn)
      (str "mongodb://" ++
        (if bU = true then u ++ ':' :: queryEscape pw ++ '@' :: hosts else hosts) ++
        '/' :: db ++ str "?replicaSet=" ++ sn ++
        (if bA1 = true then str "&authSource=" ++ asrc
         else if bA2 = true then str "&authSource=admin&tls=true" else []) ++ qpstr) := by
  have hdec :
      (str "mongodb://" ++
        (if bU = true then u ++ ':' :: queryEscape pw ++ '@' :: hosts else hosts) ++
        '/' :: db ++ str "?replicaSet=" ++ sn ++
        (if bA1 = true then str "&authSource=" ++ asrc
         else if bA2 = true then str "&authSource=admin&tls=true" else []) ++ qpstr) =
      (str "mongodb://" ++
        (if bU = true then u ++ ':' :: queryEscape pw ++ '@' :: hosts else hosts) ++
        '/' :: db ++ ['?']) ++
      ((needleRS ++ sn) ++
        ((if bA1 = true then str "&authSource=" ++ asrc
          else if bA2 = true then str "&authSource=admin&tls=true" else []) ++ qpstr)) := by
    rw [show str "?replicaSet=" = '?' :: needleRS from by decide]
    simp [List.append_assoc]
  rw [hdec]
  exact occs_pos (by simp [needle_shape]) _ _

theorem shardURI_occs (cs : ConnString) (sh : Shard) (uri : Str)
    (h : shardURI cs sh = some uri)
    (hu : occs needleRS cs.username = 0)
    (hd : occs needleRS cs.database = 0)
    (ha : occs needleRS cs.authSource = 0)
    (hq : occs needleRS (getQueryParams cs false) = 0)
    (hs : occs needleRS (setNameOf sh) = 0)
    (hh : occs needleRS (memberStrOf sh) = 0) :
    occs (needleRS ++ setNameOf sh) uri = 1 := by
  cases hidx : idxOf? (str "/") sh.host with
  | none => simp [shardURI, hidx] at h
  | some i =>
    simp only [shardURI, hidx] at h
    simp only [setNameOf, memberStrOf, hidx] at hs hh ⊢
    rw [Option.some.injEq] at h
    have hA : occs needleRS uri = 1 := by
      rw [← h]
      exact occs_rs_uri _ _ _ _ _ _ _ _ _ _ hu hd ha hs hh hq (qp_head cs false)
    have hLB : 1 ≤ occs (needleRS ++ List.take i sh.host) uri := by
      rw [← h]
      exact occs_rs_uri_lb _ _ _ _ _ _ _ _ _ _
    have hUB := occs_pattern_le needleRS (List.take i sh.host) uri
    omega

theorem mapO_length_get {α β : Type} (f : α → Option β) :
    ∀ (l : List α) (ys : List β), mapO f l = some ys →
    ys.length = l.length ∧
    ∀ i (hi : i < l.length) (hi' : i < ys.length),
      f (l.get ⟨i, hi⟩) = some (ys.get ⟨i, hi'⟩) := by
  intro l
  induction l with
  | nil =>
    intro ys h
    simp only [mapO, Option.some.injEq] at h
    subst h
    exact ⟨rfl, fun i hi => absurd hi (by simp)⟩
  | cons x t ih =>
    intro ys h
    simp only [mapO] at h
    cases hfx : f x with
    | none => rw [hfx] at h; simp at h
    | some y =>
      cases hmt : mapO f t with
      | none => rw [hfx, hmt] at h; simp at h
      | some ys' =>
        rw [hfx, hmt] at h
        simp only [Option.some.injEq] at h
        subst h
        obtain ⟨hlen, hget⟩ := ih ys' hmt
        refine ⟨by simp [hlen], ?_⟩
        intro i hi hi'
        cases i with
        | zero => simpa using hfx
        | succ j =>
          exact hget j (by simpa using hi) (by simpa using hi')

theorem mapO_mem {α β : Type} (f : α → Option β) :
    ∀ (l : List α) (ys : List β), mapO f l = some ys →
    ∀ y ∈ ys, ∃ x ∈ l, f x = some y := by
  intro l
  induction l with
  | nil =>
    intro ys h y hy
    simp only [mapO, Option.some.injEq] at h
    subst h
    simp at hy
  | cons x t ih =>
    intro ys h y hy
    simp only [mapO] at h
    cases hfx : f x with
    | none => rw [hfx] at h; simp at h
    | some y' =>
      cases hmt : mapO f t with
      | none => rw [hfx, hmt] at h; simp at h
      | some ys' =>
        rw [hfx, hmt] at h
        simp only [Option.some.injEq] at h
        subst h
        rcases List.mem_cons.mp hy with rfl | hy'
        · exact ⟨x, List.mem_cons_self _ _, hfx⟩
        · obtain ⟨x', hx', hfx'⟩ := ih ys' hmt y hy'
          exact ⟨x', List.mem_cons_of_mem _ hx', hfx'⟩

theorem isEmpty_false_of_ne {l : Str} (h : l ≠ []) : l.isEmpty = false := by
  cases l with
  | nil => exact absurd rfl h
  | cons a t => rfl

theorem stripPort_append (host : Str) :
    (stripPort host).1 ++ (stripPort host).2 = host := by
  unfold stripPort
  cases hix : idxOf? (str ":") host with
  | none => simp
  | some i =>
    by_cases h0 : 0 < i
    · simp [h0, List.take_append_drop]
    · simp [h0]

theorem getAllShardURIs_mem {shards : List Shard} {cs : ConnString}
    {res : List Str × Option Str} (h : getAllShardURIs shards cs = some res) :
    ∀ u ∈ res.1, ∃ sh ∈ shards, shardURI cs sh = some u := by
  unfold getAllShardURIs at h
  cases hm : mapO (shardURI cs) shards with
  | none => rw [hm] at h; simp at h
  | some l =>
    rw [hm] at h
    simp only [Option.map_some', Option.some.injEq] at h
    rw [← h]
    exact fun u hu => mapO_mem _ shards l hm u hu

theorem getAllServerURIs_mem {shards : List Shard} {cs : ConnString}
    {res : List Str × Option Str} (h : getAllServerURIs shards cs = some res) :
    ∀ u ∈ res.1, ∃ sh ∈ shards, ∃ ls,
      serverURIsOfShard cs (buildSeeds cs.hosts).1 (buildSeeds cs.hosts).2 sh = some ls ∧
      u ∈ ls := by
  simp only [getAllServerURIs] at h
  cases hm : mapO (serverURIsOfShard cs (buildSeeds cs.hosts).1 (buildSeeds cs.hosts).2)
      shards with
  | none => rw [hm] at h; simp at h
  | some lss =>
    rw [hm] at h
    simp only [Option.map_some', Option.some.injEq] at h
    rw [← h]
    intro u hu
    obtain ⟨ls, hls, hu'⟩ := List.mem_flatten.mp hu
    obtain ⟨sh, hsh, hf⟩ := mapO_mem _ shards lss hm ls hls
    exact ⟨sh, hsh, ls, hf, hu'⟩

theorem auth_shard_explicit {cs : ConnString} {shards : List Shard}
    {res : List Str × Option Str} (hsrv : isSRV cs = false) (hne : cs.authSource ≠ [])
    (hres : getAllShardURIs shards cs = some res) :
    ∀ u ∈ res.1, hasSub (str "&authSource=" ++ cs.authSource) u := by
  intro u hu
  obtain ⟨sh, _, hsh⟩ := getAllShardURIs_mem hres u hu
  cases hidx : idxOf? (str "/") sh.host with
  | none => simp [shardURI, hidx] at hsh
  | some i =>
    simp only [shardURI, hidx, hsrv, isEmpty_false_of_ne hne, Bool.not_false, Bool.and_self,
      if_true, Option.some.injEq] at hsh
    rw [← hsh]
    exact ⟨_, _, rfl⟩

theorem auth_shard_srv {cs : ConnString} {shards : List Shard}
    {res : List Str × Option Str} (hsrv : isSRV cs = true)
    (hres : getAllShardURIs shards cs = some res) :
    ∀ u ∈ res.1, hasSub (str "&authSource=admin&tls=true") u := by
  intro u hu
  obtain ⟨sh, _, hsh⟩ := getAllShardURIs_mem hres u hu
  cases hidx : idxOf? (str "/") sh.host with
  | none => simp [shardURI, hidx] at hsh
  | some i =>
    simp only [shardURI, hidx, hsrv, Bool.not_true, Bool.false_and, Bool.false_eq_true,
      if_false, if_true, Option.some.injEq] at hsh
    rw [← hsh]
    exact ⟨_, _, rfl⟩

theorem auth_server_explicit {cs : ConnString} {shards : List Shard}
    {res : List Str × Option Str} (hsrv : isSRV cs = false) (hne : cs.authSource ≠ [])
    (hres : getAllServerURIs shards cs = some res) :
    ∀ u ∈ res.1, hasSub (str "&authSource=" ++ cs.authSource) u := by
  intro u hu
  obtain ⟨sh, _, ls, hls, hu'⟩ := getAllServerURIs_mem hres u hu
  cases hidx : idxOf? (str "/") sh.host with
  | none => simp [serverURIsOfShard, hidx] at hls
  | some i =>
    simp only [serverURIsOfShard, hidx, Option.some.injEq] at hls
    rw [← hls] at hu'
    obtain ⟨host, _, hmem⟩ := List.mem_map.mp hu'
    simp only [memberURI, hsrv, isEmpty_false_of_ne hne, Bool.not_false, Bool.false_eq_true,
      if_false, if_true] at hmem
    have hsplit : ('&' :: (str "authSource=" ++ cs.authSource) : Str) =
        str "&authSource=" ++ cs.authSource := by
      rw [show (str "&authSource=" : Str) = '&' :: str "authSource=" from by decide,
        List.cons_append]
    rw [← hmem, hsplit]
    exact ⟨_, _, rfl⟩

theorem auth_server_srv {cs : ConnString} {shards : List Shard}
    {res : List Str × Option Str} (hsrv : isSRV cs = true)
    (hres : getAllServerURIs shards cs = some res) :
    ∀ u ∈ res.1, hasSub (str "&authSource=admin&tls=true") u := by
  intro u hu
  obtain ⟨sh, _, ls, hls, hu'⟩ := getAllServerURIs_mem hres u hu
  cases hidx : idxOf? (str "/") sh.host with
  | none => simp [serverURIsOfShard, hidx] at hls
  | some i =>
    simp only [serverURIsOfShard, hidx, Option.some.injEq] at hls
    rw [← hls] at hu'
    obtain ⟨host, _, hmem⟩ := List.mem_map.mp hu'
    simp only [memberURI, hsrv, if_true] at hmem
    have hsplit : ('&' :: str "authSource=admin&tls=true" : Str) =
        str "&authSource=admin&tls=true" := by decide
    rw [← hmem, hsplit]
    exact ⟨_, _, rfl⟩

theorem forall2_perm_eq :
    ∀ xs ys : List (List (Str × Str)), List.Forall₂ List.Perm xs ys →
    (∀ m ∈ xs, m.length ≤ 1) → xs = ys := by
  intro xs
  induction xs with
  | nil => intro ys h _; cases h; rfl
  | cons m xs' ih =>
    intro ys h hlen
    cases h with
    | cons hp ht =>
      congr 1
      · have hm := hlen m (List.mem_cons_self _ _)
        cases m with
        | nil => exact (List.perm_nil.mp hp.symm).symm
        | cons a m' =>
          have hm' : m' = [] := by
            cases m' with
            | nil => rfl
            | cons b t => simp at hm
          subst hm'
          exact (List.perm_singleton.mp hp.symm).symm
      · exact ih _ ht (fun m' hm' => hlen m' (List.mem_cons_of_mem _ hm'))

/-! ### Claim theorems -/

/-- C1, counterexample: a shard whose `id` field differs from the replica-set
prefix of its `host` field yields a discovery URI that contains
`replicaSet=<id>` zero times (the code takes the set name from `host`,
not from `id`). -/
theorem c1_counterexample :
    getAllShardURIs [⟨str "a", str "b/h1:1", 1, []⟩] csEmpty =
      some ([str "mongodb://h1:1/?replicaSet=b"], none) ∧
    occs (needleRS ++ str "a") (str "mongodb://h1:1/?replicaSet=b") = 0 := by
  exact ⟨by decide, by decide⟩

/-- C1 (amended): for every shard list on which `GetAllShardURIs` returns
normally, one URI is produced per shard in input order, and each URI contains
`replicaSet=<setName>` exactly once, where `<setName>` is the prefix of that
shard's `host` field before the `/` separator (not the `id` field), provided
the username, database, authSource and query-parameter suffix of the
configuration, and the set-name and member-host strings of each shard, do not
themselves contain the substring `replicaSet=`. -/
theorem c1_discovery_replicaSet_once (cs : ConnString) (shards : List Shard)
    (res : List Str × Option Str)
    (hres : getAllShardURIs shards cs = some res)
    (hu : occs needleRS cs.username = 0)
    (hd : occs needleRS cs.database = 0)
    (ha : occs needleRS cs.authSource = 0)
    (hq : occs needleRS (getQueryParams cs false) = 0)
    (hsh : ∀ sh ∈ shards,
      occs needleRS (setNameOf sh) = 0 ∧ occs needleRS (memberStrOf sh) = 0) :
    res.1.length = shards.length ∧
    ∀ i (hi : i < shards.length) (hi' : i < res.1.length),
      occs (needleRS ++ setNameOf (shards.get ⟨i, hi⟩)) (res.1.get ⟨i, hi'⟩) = 1 := by
  unfold getAllShardURIs at hres
  cases hm : mapO (shardURI cs) shards with
  | none => rw [hm] at hres; simp at hres
  | some l =>
    rw [hm] at hres
    simp only [Option.map_some', Option.some.injEq] at hres
    obtain ⟨hlen, hget⟩ := mapO_length_get (shardURI cs) shards l hm
    rw [← hres]
    refine ⟨hlen, ?_⟩
    intro i hi hi'
    have hmem : shards.get ⟨i, hi⟩ ∈ shards := List.get_mem _ _ _
    obtain ⟨hs0, hh0⟩ := hsh _ hmem
    exact shardURI_occs cs _ _ (hget i hi hi') hu hd ha hq hs0 hh0

/-- C1, witness for the amended theorem at a concrete input. -/
theorem c1_witness :
    occs (needleRS ++ setNameOf ⟨str "s1", str "rs0/h1:27017", 1, []⟩)
      ((([str "mongodb://h1:27017/?replicaSet=rs0"] : List Str).get ⟨0, by decide⟩)) = 1 := by
  have h := c1_discovery_replicaSet_once csEmpty [⟨str "s1", str "rs0/h1:27017", 1, []⟩]
    ([str "mongodb://h1:27017/?replicaSet=rs0"], none) (by decide) (by decide) (by decide)
    (by decide) (by decide)
    (by
      intro sh hm
      rw [List.mem_singleton] at hm
      subst hm
      exact ⟨by decide, by decide⟩)
  exact h.2 0 (by decide) (by decide)

/-- C2: the claim (and §7 of the spec) requires a data-integrity error for a
shard `host` without the `/` separator; the code instead slices with the `-1`
returned by `strings.Index` and panics (modelled as `none`), and for a host
field with zero members (`"rs0/"`) it returns a malformed URI with an empty
host list and a nil error instead of failing fast. -/
theorem c2_missing_separator_panics :
    getAllShardURIs [⟨str "s1", str "confighost:27019", 1, []⟩] csEmpty = none ∧
    getAllServerURIs [⟨str "s1", str "confighost:27019", 1, []⟩] csEmpty = none ∧
    getAllShardURIs [⟨str "s1", str "rs0/", 1, []⟩] csEmpty =
      some ([str "mongodb:///?replicaSet=rs0"], none) := by
  exact ⟨by decide, by decide, by decide⟩

/-- C3, counterexample: with an empty seed-host list (hence no managed-provider
markers at all), a topology host matching the managed-provider pattern is
rewritten — `-pri` is synthesized before the first dot — so the reconciliation
is not the identity transform. -/
theorem c3_counterexample :
    getAllServerURIs [⟨str "s1", str "rs0/a-shard-00-0.x.gcp.mongodb.net:27017", 1, []⟩]
        csEmpty =
      some ([str "mongodb://a-shard-00-0-pri.x.gcp.mongodb.net:27017/?replicaSet=rs0&"],
        none) ∧
    str "mongodb://a-shard-00-0-pri.x.gcp.mongodb.net:27017/?replicaSet=rs0&" ≠
      str "mongodb://a-shard-00-0.x.gcp.mongodb.net:27017/?replicaSet=rs0&" := by
  exact ⟨by decide, by decide⟩

/-- C3 (amended): if the seed-host list is empty and the topology-reported
member hostname does not contain both `-shard-` and `.gcp.mongodb.net`, the
hostname reconciliation of `GetAllServerURIs` is the identity and the port is
preserved verbatim. -/
theorem c3_identity_reconciliation (host : Str)
    (hpat : (goContains (str "-shard-") (stripPort host).1 &&
      goContains (str ".gcp.mongodb.net") (stripPort host).1) = false) :
    reconcileHostname (buildSeeds []).1 (buildSeeds []).2 (stripPort host).1 ++
      (stripPort host).2 = host := by
  have hrec : reconcileHostname (buildSeeds []).1 (buildSeeds []).2 (stripPort host).1 =
      (stripPort host).1 := by
    unfold reconcileHostname buildSeeds
    simp only [List.foldl_nil, List.isEmpty_nil, Bool.not_true, Bool.or_self,
      Bool.false_eq_true, if_false, Bool.not_false, Bool.true_and, hpat]
  rw [hrec, stripPort_append]

/-- C3, witness for the amended theorem at a concrete input. -/
theorem c3_witness :
    reconcileHostname (buildSeeds []).1 (buildSeeds []).2
      (stripPort (str "h1:27017")).1 ++ (stripPort (str "h1:27017")).2 =
    str "h1:27017" :=
  c3_identity_reconciliation (str "h1:27017") (by decide)

/-- C4, counterexample: on the claimed input the direct-mode URIs produced by
`GetAllServerURIs` each carry a trailing `&` (the replica-set parameter is
emitted as `replicaSet=<set>&`), so the output differs from the claimed list. -/
theorem c4_counterexample :
    getAllServerURIs [⟨str "shard01", str "shard01/h1:27018,h2:27018", 1, []⟩]
        { csEmpty with database := str "admin" } =
      some ([str "mongodb://h1:27018/?replicaSet=shard01&",
             str "mongodb://h2:27018/?replicaSet=shard01&"], none) ∧
    ([str "mongodb://h1:27018/?replicaSet=shard01&",
      str "mongodb://h2:27018/?replicaSet=shard01&"] : List Str) ≠
      [str "mongodb://h1:27018/?replicaSet=shard01",
       str "mongodb://h2:27018/?replicaSet=shard01"] := by
  exact ⟨by decide, by decide⟩

/-- C4 (amended): on the single shard `{id: "shard01", host:
"shard01/h1:27018,h2:27018"}` with empty username and database `admin`,
`GetAllShardURIs` returns exactly the claimed discovery URI, and
`GetAllServerURIs` returns the two claimed direct URIs except that each carries
a trailing `&`. -/
theorem c4_end_to_end :
    getAllShardURIs [⟨str "shard01", str "shard01/h1:27018,h2:27018", 1, []⟩]
        { csEmpty with database := str "admin" } =
      some ([str "mongodb://h1:27018,h2:27018/admin?replicaSet=shard01"], none) ∧
    getAllServerURIs [⟨str "shard01", str "shard01/h1:27018,h2:27018", 1, []⟩]
        { csEmpty with database := str "admin" } =
      some ([str "mongodb://h1:27018/?replicaSet=shard01&",
             str "mongodb://h2:27018/?replicaSet=shard01&"], none) := by
  exact ⟨by decide, by decide⟩

/-- C5, counterexample: with an SRV-scheme configuration carrying the explicit
authSource `mydb`, the generated discovery URI carries the forced
`authSource=admin&tls=true` and never mentions `mydb` — the SRV policy
overrides the explicit value, contrary to the claim. -/
theorem c5_counterexample :
    getAllShardURIs [⟨str "s1", str "rs0/h1", 1, []⟩]
        { csEmpty with original := str "mongodb+srv://seed", authSource := str "mydb" } =
      some ([str "mongodb://h1/?replicaSet=rs0&authSource=admin&tls=true"], none) ∧
    occs (str "authSource=mydb")
      (str "mongodb://h1/?replicaSet=rs0&authSource=admin&tls=true") = 0 := by
  exact ⟨by decide, by decide⟩

/-- C5 (amended): in both modes, when the scheme is non-SRV and an explicit
authSource is set, every generated URI carries `&authSource=<explicit>`; when
the scheme is SRV, every generated URI carries the forced
`&authSource=admin&tls=true` — even when an explicit authSource is set, so the
explicit value wins only in non-SRV mode. -/
theorem c5_authSource_policy :
    (∀ (cs : ConnString) (shards : List Shard) (res : List Str × Option Str),
      isSRV cs = false → cs.authSource ≠ [] → getAllShardURIs shards cs = some res →
      ∀ u ∈ res.1, hasSub (str "&authSource=" ++ cs.authSource) u) ∧
    (∀ (cs : ConnString) (shards : List Shard) (res : List Str × Option Str),
      isSRV cs = false → cs.authSource ≠ [] → getAllServerURIs shards cs = some res →
      ∀ u ∈ res.1, hasSub (str "&authSource=" ++ cs.authSource) u) ∧
    (∀ (cs : ConnString) (shards : List Shard) (res : List Str × Option Str),
      isSRV cs = true → getAllShardURIs shards cs = some res →
      ∀ u ∈ res.1, hasSub (str "&authSource=admin&tls=true") u) ∧
    (∀ (cs : ConnString) (shards : List Shard) (res : List Str × Option Str),
      isSRV cs = true → getAllServerURIs shards cs = some res →
      ∀ u ∈ res.1, hasSub (str "&authSource=admin&tls=true") u) :=
  ⟨fun _ _ _ hsrv hne hres => auth_shard_explicit hsrv hne hres,
   fun _ _ _ hsrv hne hres => auth_server_explicit hsrv hne hres,
   fun _ _ _ hsrv hres => auth_shard_srv hsrv hres,
   fun _ _ _ hsrv hres => auth_server_srv hsrv hres⟩

/-- C5, witness at a concrete non-SRV input with explicit authSource `x`. -/
theorem c5_witness :
    hasSub (str "&authSource=" ++ str "x") (str "mongodb://h1/?replicaSet=rs0&authSource=x") :=
  c5_authSource_policy.1 { csEmpty with authSource := str "x" }
    [⟨str "s1", str "rs0/h1", 1, []⟩]
    ([str "mongodb://h1/?replicaSet=rs0&authSource=x"], none)
    (by decide) (by decide) (by decide)
    (str "mongodb://h1/?replicaSet=rs0&authSource=x") (List.mem_singleton.mpr rfl)

/-- C6, counterexample: the `readPreferenceTags` emission iterates a Go map,
whose iteration order is unspecified; two iteration orders of the same
two-entry tag map produce different suffixes, so the composed suffix is not a
deterministic function of the configuration when a tag set has more than one
key. -/
theorem c6_counterexample :
    getQueryParams
        { csEmpty with readPreferenceTagSets := [[(str "a", str "1"), (str "b", str "2")]] }
        false ≠
      getQueryParams
        { csEmpty with readPreferenceTagSets := [[(str "b", str "2"), (str "a", str "1")]] }
        false ∧
    List.Perm [((str "a", str "1") : Str × Str), (str "b", str "2")]
      [(str "b", str "2"), (str "a", str "1")] := by
  exact ⟨by decide, List.Perm.swap _ _ _⟩

/-- C6 (amended): `GetQueryParams` is deterministic given the configuration
together with a fixed iteration order for each tag map; when every tag set has
at most one key the suffix is independent of the iteration order. -/
theorem c6_deterministic_small_tagsets (cs : ConnString)
    (ts : List (List (Str × Str)))
    (hf : List.Forall₂ List.Perm cs.readPreferenceTagSets ts)
    (hlen : ∀ m ∈ cs.readPreferenceTagSets, m.length ≤ 1) (flag : Bool) :
    getQueryParams cs flag =
      getQueryParams { cs with readPreferenceTagSets := ts } flag := by
  have heq : cs.readPreferenceTagSets = ts :=
    forall2_perm_eq cs.readPreferenceTagSets ts hf hlen
  rw [← heq]

/-- C6, witness for the amended theorem at a concrete input. -/
theorem c6_witness :
    getQueryParams { csEmpty with readPreferenceTagSets := [[(str "a", str "1")]] } false =
      getQueryParams
        { { csEmpty with readPreferenceTagSets := [[(str "a", str "1")]] } with
            readPreferenceTagSets := [[(str "a", str "1")]] } false :=
  c6_deterministic_small_tagsets _ [[(str "a", str "1")]]
    (List.Forall₂.cons (List.Perm.refl _) List.Forall₂.nil)
    (by
      intro m hm
      rw [List.mem_singleton] at hm
      subst hm
      decide)
    false

/-- C7: with the original seed host `prod-x-shard-00-00-pri.example.net` and
the topology-reported member `prod-x-shard-00-00.example.net:27017`, the
reconciliation of `GetAllServerURIs` resolves the member to the seed host's
form with the topology port reattached, and the full direct-mode URI addresses
that host. -/
theorem c7_atlas_pri_reconciliation :
    reconcileHostname (buildSeeds [str "prod-x-shard-00-00-pri.example.net"]).1
        (buildSeeds [str "prod-x-shard-00-00-pri.example.net"]).2
        (stripPort (str "prod-x-shard-00-00.example.net:27017")).1 ++
      (stripPort (str "prod-x-shard-00-00.example.net:27017")).2 =
      str "prod-x-shard-00-00-pri.example.net:27017" ∧
    getAllServerURIs [⟨str "s1", str "rs0/prod-x-shard-00-00.example.net:27017", 1, []⟩]
        { csEmpty with hosts := [str "prod-x-shard-00-00-pri.example.net"] } =
      some ([str "mongodb://prod-x-shard-00-00-pri.example.net:27017/?replicaSet=rs0&"],
        none) := by
  exact ⟨by decide, by decide⟩

/-- C8: in direct-connect mode `GetQueryParams` never emits `readPreference`
or `readPreferenceTags` — its output does not depend on the read-preference
fields at all. -/
theorem c8_direct_mode_no_read_preference (cs : ConnString) :
    getQueryParams cs true =
      getQueryParams { cs with readPreference := [], readPreferenceTagSets := [] } true := by
  simp [getQueryParams]

/-- C9: on the empty shard list both builders return an empty URI list and a
nil error. -/
theorem c9_empty_shard_list (cs : ConnString) :
    getAllShardURIs [] cs = some ([], none) ∧ getAllServerURIs [] cs = some ([], none) :=
  ⟨rfl, rfl⟩

/-- C10: whenever `GetAllShardURIs` or `GetAllServerURIs` terminates normally,
the error component of its result is nil — no error value is ever surfaced
through the return value. -/
theorem c10_error_always_nil :
    (∀ (shards : List Shard) (cs : ConnString) (res : List Str × Option Str),
      getAllShardURIs shards cs = some res → res.2 = none) ∧
    (∀ (shards : List Shard) (cs : ConnString) (res : List Str × Option Str),
      getAllServerURIs shards cs = some res → res.2 = none) := by
  constructor
  · intro shards cs res h
    unfold getAllShardURIs at h
    cases hm : mapO (shardURI cs) shards with
    | none => rw [hm] at h; simp at h
    | some l =>
      rw [hm] at h
      simp only [Option.map_some', Option.some.injEq] at h
      rw [← h]
  · intro shards cs res h
    simp only [getAllServerURIs] at h
    cases hm : mapO (serverURIsOfShard cs (buildSeeds cs.hosts).1 (buildSeeds cs.hosts).2)
        shards with
    | none => rw [hm] at h; simp at h
    | some lss =>
      rw [hm] at h
      simp only [Option.map_some', Option.some.injEq] at h
      rw [← h]

/-- C10, witness at a concrete input. -/
theorem c10_witness : (([], none) : List Str × Option Str).2 = (none : Option Str) :=
  c10_error_always_nil.1 [] csEmpty ([], none) rfl

end Keyhole
